import Mathlib

/-!
# Verification of `project_setup.py` (Causal-Analysis-Visualization-AP-)

Shallow embedding of the project-scaffolding script `src/project_setup.py`.

The script's observable state is the filesystem below the current working
directory.  We model it as an association list from paths (lists of
components, relative to the CWD, which itself is an implicit root
directory) to entries (directory, or file with byte content).  The two
filesystem primitives the script uses are embedded:

* `os.makedirs(p, exist_ok=True)` → `makedirs`: creates every missing
  component of the path as a directory; an existing directory component is
  fine; a component that exists as a plain file raises an error
  (`FileExistsError` for the final component, `NotADirectoryError` for an
  intermediate one).  Components created before the failure point remain.
* `pathlib.Path.touch()` → `touch`: if the path exists (as file or
  directory) it is left untouched (the real call updates mtimes, which we
  do not model); otherwise an empty file is created, provided the parent
  directory exists; a missing parent raises `FileNotFoundError`, a parent
  that is a plain file raises `NotADirectoryError`.

The script is a straight-line sequence of such operations; an exception
propagates immediately (there is no handler), leaving the filesystem as it
was at the failure point.  We model the run as a fold over the operation
list that stops at the first error but keeps the state reached so far.
-/

namespace ProjectSetup

/-- A path, as its list of components relative to the current working
directory (`[]` is the CWD itself, always an existing directory). -/
abbrev Path := List String

/-- A filesystem entry: a directory, or a file with its byte content. -/
inductive Entry : Type
  | dir : Entry
  | file : List Nat → Entry
deriving DecidableEq, Repr

/-- The filesystem below the CWD: an association list from paths to
entries.  Earlier bindings shadow later ones (entries are only ever added
for paths not yet present, so no shadowing actually occurs). -/
abbrev FS := List (Path × Entry)

/-- Look a path up in the filesystem. -/
def FS.find : FS → Path → Option Entry
  | [], _ => none
  | (q, e) :: fs, p => if p = q then some e else FS.find fs p

/-- Add an entry (only ever used for a path that is absent). -/
def FS.insert (fs : FS) (p : Path) (e : Entry) : FS := (p, e) :: fs

/-- The I/O errors the script's two primitives can raise (all are
`OSError` subclasses in Python). -/
inductive IOError : Type
  | fileExists : IOError
  | notADirectory : IOError
  | fileNotFound : IOError
deriving DecidableEq, Repr

/-- Split a character list at `'/'` separators, accumulating the current
component in reverse. -/
def splitSlashAux : List Char → List Char → List String
  | [], acc => [String.mk acc.reverse]
  | c :: cs, acc =>
    if c = '/' then String.mk acc.reverse :: splitSlashAux cs []
    else splitSlashAux cs (c :: acc)

/-- Split a slash-separated relative path string into components, as
`pathlib.PurePath` does for the strings appearing in the script
(none of which is empty or has a leading, trailing or doubled slash). -/
def pathSep (s : String) : List String := splitSlashAux s.data []

/-- `os.makedirs(done ++ rest, exist_ok=True)`, with the components of
`done` already known to exist as directories: walk the remaining
components, keeping an existing directory, erroring on a component that
is a plain file, and creating a missing component as a directory.
Components created before an error remain (the real call is not atomic). -/
def mkdirsAux : FS → Path → List String → FS × Option IOError
  | fs, _, [] => (fs, none)
  | fs, done, c :: rest =>
    let p := done ++ [c]
    match FS.find fs p with
    | some .dir => mkdirsAux fs p rest
    | some (.file _) =>
      (fs, some (if rest.isEmpty then .fileExists else .notADirectory))
    | none => mkdirsAux (FS.insert fs p .dir) p rest

/-- `os.makedirs(p, exist_ok=True)`. -/
def makedirs (fs : FS) (p : Path) : FS × Option IOError :=
  mkdirsAux fs [] p

/-- `pathlib.Path.touch()`: an existing path (file or directory) is left
untouched; otherwise an empty file is created when the parent directory
exists, and a missing or non-directory parent is an error. -/
def touch (fs : FS) (p : Path) : FS × Option IOError :=
  match FS.find fs p with
  | some _ => (fs, none)
  | none =>
    if p = [] then (fs, none)
    else
      let parent := p.dropLast
      if parent = [] then (FS.insert fs p (.file []), none)
      else
        match FS.find fs parent with
        | some .dir => (FS.insert fs p (.file []), none)
        | some (.file _) => (fs, some .notADirectory)
        | none => (fs, some .fileNotFound)

/-- One filesystem operation performed by the script. -/
inductive Op : Type
  | mkdirs : Path → Op
  | touch : Path → Op
deriving DecidableEq, Repr

/-- Execute one operation. -/
def applyOp : Op → FS → FS × Option IOError
  | .mkdirs p, fs => makedirs fs p
  | .touch p, fs => touch fs p

/-- Execute a sequence of operations, stopping at the first error but
keeping the state reached so far (a Python exception propagates out of
the loop; nothing is rolled back). -/
def exec : List Op → FS → FS × Option IOError
  | [], fs => (fs, none)
  | op :: ops, fs =>
    match applyOp op fs with
    | (fs', none) => exec ops fs'
    | (fs', some e) => (fs', some e)

/-- `base_path = pathlib.Path("ap")`. -/
def base_path : Path := pathSep "ap"

/-- The `directories` list of `create_project_structure`. -/
def directories : List String :=
  ["data/raw",
   "data/processed",
   "data/output",
   "src/data_processing",
   "src/clustering",
   "tests"]

/-- The `init_locations` list of `create_project_structure`. -/
def init_locations : List String :=
  ["src",
   "src/data_processing",
   "src/clustering",
   "tests"]

/-- The `files_to_create` list of `create_project_structure`. -/
def files_to_create : List String :=
  ["requirements.txt",
   "main.py",
   "src/config.py",
   "src/data_processing/data_processor.py",
   "src/data_processing/feature_engineering.py",
   "src/data_processing/utils.py",
   "src/clustering/hierarchical_clustering.py",
   "src/clustering/visualization.py"]

/-- The directory-creation phase: `os.makedirs(base_path / dir_path,
exist_ok=True)` for each entry of `directories`, in order. -/
def dirOps : List Op :=
  directories.map (fun dir_path => Op.mkdirs (base_path ++ pathSep dir_path))

/-- The marker-file phase: `(base_path / location / "__init__.py").touch()`
for each entry of `init_locations`, in order. -/
def initOps : List Op :=
  init_locations.map
    (fun location => Op.touch (base_path ++ pathSep location ++ ["__init__.py"]))

/-- The file phase: `(base_path / file_path).touch()` for each entry of
`files_to_create`, in order. -/
def fileOps : List Op :=
  files_to_create.map (fun file_path => Op.touch (base_path ++ pathSep file_path))

/-- The whole operation sequence of `create_project_structure`, in program
order: the three loops run one after the other. -/
def ops : List Op := dirOps ++ initOps ++ fileOps

/-- `create_project_structure()`: run the three loops on the given
filesystem; the result is the final filesystem together with the error
that aborted the run, if any. -/
def create_project_structure (fs : FS) : FS × Option IOError :=
  exec ops fs

/-- The `if __name__ == "__main__"` guard calls `create_project_structure()`
with no arguments and no exception handler.  Modelled from the Python
runtime's contract for a script: running to completion exits with status
`0`, an uncaught exception propagates to the interpreter top level, which
prints it and exits with status `1`. -/
def mainExitCode (fs : FS) : FS × Nat :=
  match create_project_structure fs with
  | (fs', none) => (fs', 0)
  | (fs', some _) => (fs', 1)

/-- The target path of an operation. -/
def Op.target : Op → Path
  | .mkdirs p => p
  | .touch p => p

/-- The paths an operation can create or change: `makedirs p` only ever
inserts the nonempty prefixes of `p`, `touch p` only ever inserts `p`. -/
def affects : Op → Path → Prop
  | .mkdirs p, q => q ≠ [] ∧ q <+: p
  | .touch p, q => q = p

instance (op : Op) (q : Path) : Decidable (affects op q) :=
  match op with
  | .mkdirs p => inferInstanceAs (Decidable (q ≠ [] ∧ q <+: p))
  | .touch p => inferInstanceAs (Decidable (q = p))

/-- The directory manifest as absolute-from-CWD paths. -/
def dirPaths : List Path :=
  directories.map (fun dir_path => base_path ++ pathSep dir_path)

/-- The package-marker file manifest as absolute-from-CWD paths. -/
def markerPaths : List Path :=
  init_locations.map (fun location => base_path ++ pathSep location ++ ["__init__.py"])

/-- The plain-file manifest as absolute-from-CWD paths. -/
def filePaths : List Path :=
  files_to_create.map (fun file_path => base_path ++ pathSep file_path)

/-- All paths the script explicitly targets. -/
def layoutPaths : List Path := dirPaths ++ markerPaths ++ filePaths

/-- The 6 + 4 + 8 paths of the claimed layout, written out relative to the
CWD (each starts with the base directory `ap`). -/
def claimedLayout : List Path :=
  [["ap", "data", "raw"],
   ["ap", "data", "processed"],
   ["ap", "data", "output"],
   ["ap", "src", "data_processing"],
   ["ap", "src", "clustering"],
   ["ap", "tests"],
   ["ap", "src", "__init__.py"],
   ["ap", "src", "data_processing", "__init__.py"],
   ["ap", "src", "clustering", "__init__.py"],
   ["ap", "tests", "__init__.py"],
   ["ap", "requirements.txt"],
   ["ap", "main.py"],
   ["ap", "src", "config.py"],
   ["ap", "src", "data_processing", "data_processor.py"],
   ["ap", "src", "data_processing", "feature_engineering.py"],
   ["ap", "src", "data_processing", "utils.py"],
   ["ap", "src", "clustering", "hierarchical_clustering.py"],
   ["ap", "src", "clustering", "visualization.py"]]

/-- The base directory and the two intermediate parent directories that
exist because listed directory paths pass through them. -/
def intermediateDirs : List Path :=
  [["ap"], ["ap", "data"], ["ap", "src"]]

/-- An initial state for the non-destructiveness scenario: the scaffold's
`ap/src/config.py` already holds two bytes of content. -/
def preExistingContentState : FS :=
  [(["ap"], Entry.dir),
   (["ap", "src"], Entry.dir),
   (["ap", "src", "config.py"], Entry.file [104, 105])]

/-- An initial state for the path-collision scenario: a plain file sits at
`ap/src`, where the script expects a directory. -/
def collisionState : FS :=
  [(["ap", "src"], Entry.file [7])]

/-- An initial state with an entry outside the `ap` subtree. -/
def outsideState : FS :=
  [(["other"], Entry.file [9])]

/-! ## Basic lemmas about the filesystem model -/

theorem FS.find_insert (fs : FS) (p q : Path) (e : Entry) :
    (fs.insert p e).find q = if q = p then some e else fs.find q := rfl

theorem FS.find_isSome_iff {fs : FS} {p : Path} :
    (fs.find p).isSome = true ↔ p ∈ fs.map Prod.fst := by
  induction fs with
  | nil =>
    constructor
    · intro h; exact absurd h (by simp [FS.find])
    · intro h; exact absurd h (List.not_mem_nil p)
  | cons qe fs ih =>
    obtain ⟨q, e⟩ := qe
    simp only [FS.find, List.map_cons, List.mem_cons]
    by_cases hpq : p = q
    · simp only [if_pos hpq, Option.isSome_some, true_iff]
      exact Or.inl hpq
    · simp only [if_neg hpq, ih]
      exact ⟨Or.inr, fun h => h.elim (fun h1 => absurd h1 hpq) id⟩

theorem prefix_cons_cases {α : Type} {pre : List α} {c : α} {rest : List α}
    (h : pre <+: c :: rest) : pre = [] ∨ ∃ pre', pre = c :: pre' ∧ pre' <+: rest := by
  cases pre with
  | nil => exact Or.inl rfl
  | cons a pre' =>
    obtain ⟨t, ht⟩ := h
    rw [List.cons_append] at ht
    injection ht with h1 h2
    exact Or.inr ⟨pre', by rw [h1], ⟨t, h2⟩⟩

theorem singleton_prefix_cons {α : Type} (c : α) (rest : List α) : [c] <+: c :: rest :=
  ⟨rest, rfl⟩

theorem cons_prefix_cons {α : Type} {c : α} {pre rest : List α} (h : pre <+: rest) :
    c :: pre <+: c :: rest := by
  obtain ⟨t, ht⟩ := h
  exact ⟨t, by rw [List.cons_append, ht]⟩

/-! ## Monotonicity: no primitive ever removes or overwrites an entry -/

theorem mkdirsAux_mono {rest : List String} {fs fs' : FS} {done : Path} {r : Option IOError}
    (h : mkdirsAux fs done rest = (fs', r)) {q : Path} {v : Entry}
    (hq : fs.find q = some v) : fs'.find q = some v := by
  induction rest generalizing fs done with
  | nil =>
    simp only [mkdirsAux] at h
    injection h with h1 _
    rw [← h1]; exact hq
  | cons c rest ih =>
    cases hfind : FS.find fs (done ++ [c]) with
    | none =>
      simp only [mkdirsAux, hfind] at h
      refine ih h ?_
      rw [FS.find_insert]
      by_cases hqp : q = done ++ [c]
      · rw [hqp, hfind] at hq; simp at hq
      · simp [hqp, hq]
    | some e =>
      cases e with
      | dir =>
        simp only [mkdirsAux, hfind] at h
        exact ih h hq
      | file content =>
        simp only [mkdirsAux, hfind] at h
        injection h with h1 _
        rw [← h1]; exact hq

theorem touch_mono {fs fs' : FS} {p : Path} {r : Option IOError}
    (h : touch fs p = (fs', r)) {q : Path} {v : Entry}
    (hq : fs.find q = some v) : fs'.find q = some v := by
  cases hp : FS.find fs p with
  | some e =>
    simp only [touch, hp] at h
    injection h with h1 _; rw [← h1]; exact hq
  | none =>
    simp only [touch, hp] at h
    by_cases hpe : p = []
    · simp only [if_pos hpe] at h
      injection h with h1 _; rw [← h1]; exact hq
    · simp only [if_neg hpe] at h
      by_cases hpar : p.dropLast = []
      · simp only [if_pos hpar] at h
        injection h with h1 _
        rw [← h1, FS.find_insert]
        by_cases hqp : q = p
        · rw [hqp, hp] at hq; simp at hq
        · simp [hqp, hq]
      · simp only [if_neg hpar] at h
        cases hq2 : FS.find fs p.dropLast with
        | none =>
          simp only [hq2] at h
          injection h with h1 _; rw [← h1]; exact hq
        | some e2 =>
          cases e2 with
          | dir =>
            simp only [hq2] at h
            injection h with h1 _
            rw [← h1, FS.find_insert]
            by_cases hqp : q = p
            · rw [hqp, hp] at hq; simp at hq
            · simp [hqp, hq]
          | file content =>
            simp only [hq2] at h
            injection h with h1 _; rw [← h1]; exact hq

theorem applyOp_mono {op : Op} {fs fs' : FS} {r : Option IOError}
    (h : applyOp op fs = (fs', r)) {q : Path} {v : Entry}
    (hq : fs.find q = some v) : fs'.find q = some v := by
  cases op with
  | mkdirs p => exact mkdirsAux_mono h hq
  | touch p => exact touch_mono h hq

theorem exec_cons_ok {op : Op} {l : List Op} {fs fs1 : FS}
    (hop : applyOp op fs = (fs1, none)) :
    exec (op :: l) fs = exec l fs1 := by
  rw [exec, hop]

theorem exec_cons_err {op : Op} {l : List Op} {fs fs1 : FS} {e : IOError}
    (hop : applyOp op fs = (fs1, some e)) :
    exec (op :: l) fs = (fs1, some e) := by
  rw [exec, hop]

theorem exec_mono {l : List Op} {fs fs' : FS} {r : Option IOError}
    (h : exec l fs = (fs', r)) {q : Path} {v : Entry}
    (hq : fs.find q = some v) : fs'.find q = some v := by
  induction l generalizing fs with
  | nil =>
    simp only [exec] at h
    injection h with h1 _; rw [← h1]; exact hq
  | cons op l ih =>
    cases hop : applyOp op fs with
    | mk fs1 r1 =>
      cases r1 with
      | none =>
        rw [exec_cons_ok hop] at h
        exact ih h (applyOp_mono hop hq)
      | some e =>
        rw [exec_cons_err hop] at h
        injection h with h1 _; rw [← h1]
        exact applyOp_mono hop hq

/-! ## Frame: a primitive only changes the paths it `affects` -/

theorem mkdirsAux_frame {rest : List String} {fs fs' : FS} {done : Path} {r : Option IOError}
    (h : mkdirsAux fs done rest = (fs', r)) {q : Path}
    (hq : ∀ pre, pre ≠ [] → pre <+: rest → q ≠ done ++ pre) :
    fs'.find q = fs.find q := by
  induction rest generalizing fs done with
  | nil =>
    simp only [mkdirsAux] at h
    injection h with h1 _; rw [← h1]
  | cons c rest ih =>
    have hqp : q ≠ done ++ [c] := hq [c] (by simp) (singleton_prefix_cons c rest)
    have hq' : ∀ pre, pre ≠ [] → pre <+: rest → q ≠ (done ++ [c]) ++ pre := by
      intro pre hne hpre
      rw [List.append_assoc]
      exact hq (c :: pre) (by simp) (cons_prefix_cons hpre)
    cases hfind : FS.find fs (done ++ [c]) with
    | none =>
      simp only [mkdirsAux, hfind] at h
      rw [ih h hq', FS.find_insert, if_neg hqp]
    | some e =>
      cases e with
      | dir =>
        simp only [mkdirsAux, hfind] at h
        exact ih h hq'
      | file content =>
        simp only [mkdirsAux, hfind] at h
        injection h with h1 _; rw [← h1]

theorem makedirs_frame {fs fs' : FS} {p : Path} {r : Option IOError}
    (h : makedirs fs p = (fs', r)) {q : Path} (hq : ¬ affects (Op.mkdirs p) q) :
    fs'.find q = fs.find q := by
  refine mkdirsAux_frame h ?_
  intro pre hne hpre heq
  rw [List.nil_append] at heq
  subst heq
  exact hq ⟨hne, hpre⟩

theorem touch_frame {fs fs' : FS} {p : Path} {r : Option IOError}
    (h : touch fs p = (fs', r)) {q : Path} (hq : q ≠ p) :
    fs'.find q = fs.find q := by
  cases hp : FS.find fs p with
  | some e =>
    simp only [touch, hp] at h
    injection h with h1 _; rw [← h1]
  | none =>
    simp only [touch, hp] at h
    by_cases hpe : p = []
    · simp only [if_pos hpe] at h
      injection h with h1 _; rw [← h1]
    · simp only [if_neg hpe] at h
      by_cases hpar : p.dropLast = []
      · simp only [if_pos hpar] at h
        injection h with h1 _
        rw [← h1, FS.find_insert, if_neg hq]
      · simp only [if_neg hpar] at h
        cases hq2 : FS.find fs p.dropLast with
        | none =>
          simp only [hq2] at h
          injection h with h1 _; rw [← h1]
        | some e2 =>
          cases e2 with
          | dir =>
            simp only [hq2] at h
            injection h with h1 _
            rw [← h1, FS.find_insert, if_neg hq]
          | file content =>
            simp only [hq2] at h
            injection h with h1 _; rw [← h1]

theorem applyOp_frame {op : Op} {fs fs' : FS} {r : Option IOError}
    (h : applyOp op fs = (fs', r)) {q : Path} (hq : ¬ affects op q) :
    fs'.find q = fs.find q := by
  cases op with
  | mkdirs p => exact makedirs_frame h hq
  | touch p => exact touch_frame h hq

theorem exec_frame {l : List Op} {fs fs' : FS} {r : Option IOError}
    (h : exec l fs = (fs', r)) {q : Path}
    (hq : ∀ op ∈ l, ¬ affects op q) :
    fs'.find q = fs.find q := by
  induction l generalizing fs with
  | nil =>
    simp only [exec] at h
    injection h with h1 _; rw [← h1]
  | cons op l ih =>
    cases hop : applyOp op fs with
    | mk fs1 r1 =>
      cases r1 with
      | none =>
        rw [exec_cons_ok hop] at h
        rw [ih h (fun op' h' => hq op' (List.mem_cons_of_mem _ h'))]
        exact applyOp_frame hop (hq op (List.mem_cons_self op l))
      | some e =>
        rw [exec_cons_err hop] at h
        injection h with h1 _; rw [← h1]
        exact applyOp_frame hop (hq op (List.mem_cons_self op l))

/-! ## Postconditions of the successful primitives -/

theorem mkdirsAux_post {rest : List String} {fs fs' : FS} {done : Path}
    (h : mkdirsAux fs done rest = (fs', none)) :
    ∀ pre, pre ≠ [] → pre <+: rest → fs'.find (done ++ pre) = some Entry.dir := by
  induction rest generalizing fs done with
  | nil =>
    intro pre hne hpre
    exact absurd (List.prefix_nil.mp hpre) hne
  | cons c rest ih =>
    intro pre hne hpre
    rcases prefix_cons_cases hpre with rfl | ⟨pre', rfl, hpre'⟩
    · exact absurd rfl hne
    cases hfind : FS.find fs (done ++ [c]) with
    | none =>
      simp only [mkdirsAux, hfind] at h
      rcases eq_or_ne pre' [] with rfl | hne'
      · exact mkdirsAux_mono h (by rw [FS.find_insert, if_pos rfl])
      · have := ih h pre' hne' hpre'
        rw [List.append_assoc] at this
        exact this
    | some e =>
      cases e with
      | dir =>
        simp only [mkdirsAux, hfind] at h
        rcases eq_or_ne pre' [] with rfl | hne'
        · exact mkdirsAux_mono h hfind
        · have := ih h pre' hne' hpre'
          rw [List.append_assoc] at this
          exact this
      | file content =>
        simp only [mkdirsAux, hfind] at h
        injection h with _ h2
        exact Option.noConfusion h2

theorem makedirs_post {fs fs' : FS} {p : Path}
    (h : makedirs fs p = (fs', none)) :
    ∀ pre, pre ≠ [] → pre <+: p → fs'.find pre = some Entry.dir := by
  intro pre hne hpre
  have := mkdirsAux_post h pre hne hpre
  rw [List.nil_append] at this
  exact this

theorem touch_post {fs fs' : FS} {p : Path}
    (h : touch fs p = (fs', none)) (hp : p ≠ []) :
    ∃ v, fs'.find p = some v := by
  cases hfind : FS.find fs p with
  | some e =>
    simp only [touch, hfind] at h
    injection h with h1 _; rw [← h1]
    exact ⟨e, hfind⟩
  | none =>
    simp only [touch, hfind] at h
    simp only [if_neg hp] at h
    by_cases hpar : p.dropLast = []
    · simp only [if_pos hpar] at h
      injection h with h1 _
      exact ⟨Entry.file [], by rw [← h1, FS.find_insert, if_pos rfl]⟩
    · simp only [if_neg hpar] at h
      cases hq2 : FS.find fs p.dropLast with
      | none =>
        simp only [hq2] at h
        injection h with _ h2
        exact Option.noConfusion h2
      | some e2 =>
        cases e2 with
        | dir =>
          simp only [hq2] at h
          injection h with h1 _
          exact ⟨Entry.file [], by rw [← h1, FS.find_insert, if_pos rfl]⟩
        | file content =>
          simp only [hq2] at h
          injection h with _ h2
          exact Option.noConfusion h2

theorem touch_new {fs fs' : FS} {p : Path}
    (h : touch fs p = (fs', none)) (hfind : fs.find p = none) (hp : p ≠ []) :
    fs'.find p = some (Entry.file []) := by
  simp only [touch, hfind] at h
  simp only [if_neg hp] at h
  by_cases hpar : p.dropLast = []
  · simp only [if_pos hpar] at h
    injection h with h1 _
    rw [← h1, FS.find_insert, if_pos rfl]
  · simp only [if_neg hpar] at h
    cases hq2 : FS.find fs p.dropLast with
    | none =>
      simp only [hq2] at h
      injection h with _ h2
      exact Option.noConfusion h2
    | some e2 =>
      cases e2 with
      | dir =>
        simp only [hq2] at h
        injection h with h1 _
        rw [← h1, FS.find_insert, if_pos rfl]
      | file content =>
        simp only [hq2] at h
        injection h with _ h2
        exact Option.noConfusion h2

/-! ## Identity: on a state that already satisfies its goal, a primitive
is a no-op -/

theorem touch_id {fs : FS} {p : Path} {v : Entry} (h : fs.find p = some v) :
    touch fs p = (fs, none) := by
  simp only [touch, h]

theorem mkdirsAux_id {rest : List String} {fs : FS} {done : Path}
    (h : ∀ pre, pre ≠ [] → pre <+: rest → fs.find (done ++ pre) = some Entry.dir) :
    mkdirsAux fs done rest = (fs, none) := by
  induction rest generalizing done with
  | nil => simp only [mkdirsAux]
  | cons c rest ih =>
    have hc : fs.find (done ++ [c]) = some Entry.dir :=
      h [c] (by simp) (singleton_prefix_cons c rest)
    simp only [mkdirsAux, hc]
    refine ih ?_
    intro pre hne hpre
    rw [List.append_assoc]
    exact h (c :: pre) (by simp) (cons_prefix_cons hpre)

theorem makedirs_id {fs : FS} {p : Path}
    (h : ∀ pre, pre ≠ [] → pre <+: p → fs.find pre = some Entry.dir) :
    makedirs fs p = (fs, none) := by
  refine mkdirsAux_id ?_
  intro pre hne hpre
  rw [List.nil_append]
  exact h pre hne hpre

theorem exec_id {l : List Op} {fs : FS}
    (h : ∀ op ∈ l, applyOp op fs = (fs, none)) :
    exec l fs = (fs, none) := by
  induction l with
  | nil => rfl
  | cons op l ih =>
    rw [exec_cons_ok (h op (List.mem_cons_self op l))]
    exact ih (fun op' h' => h op' (List.mem_cons_of_mem _ h'))

/-! ## Composing and decomposing executions -/

theorem exec_append_ok {l1 l2 : List Op} {fs fs1 : FS}
    (h : exec l1 fs = (fs1, none)) :
    exec (l1 ++ l2) fs = exec l2 fs1 := by
  induction l1 generalizing fs with
  | nil =>
    simp only [exec] at h
    injection h with h1 _
    rw [List.nil_append, h1]
  | cons op l1 ih =>
    cases hop : applyOp op fs with
    | mk fsa ra =>
      cases ra with
      | none =>
        rw [exec_cons_ok hop] at h
        rw [List.cons_append, exec_cons_ok hop]
        exact ih h
      | some e =>
        rw [exec_cons_err hop] at h
        injection h with _ h2
        exact Option.noConfusion h2

theorem exec_append_err {l1 l2 : List Op} {fs fs1 : FS} {e : IOError}
    (h : exec l1 fs = (fs1, some e)) :
    exec (l1 ++ l2) fs = (fs1, some e) := by
  induction l1 generalizing fs with
  | nil =>
    simp only [exec] at h
    injection h with _ h2
    exact Option.noConfusion h2
  | cons op l1 ih =>
    cases hop : applyOp op fs with
    | mk fsa ra =>
      cases ra with
      | none =>
        rw [exec_cons_ok hop] at h
        rw [List.cons_append, exec_cons_ok hop]
        exact ih h
      | some e' =>
        rw [exec_cons_err hop] at h
        rw [List.cons_append, exec_cons_err hop]
        exact h

theorem exec_append_split {l1 l2 : List Op} {fs fs' : FS} {r : Option IOError}
    (h : exec (l1 ++ l2) fs = (fs', r)) :
    (∃ fs1, exec l1 fs = (fs1, none) ∧ exec l2 fs1 = (fs', r)) ∨
      (∃ e, exec l1 fs = (fs', some e) ∧ r = some e) := by
  cases hsplit : exec l1 fs with
  | mk fs1 r1 =>
    cases r1 with
    | none =>
      rw [exec_append_ok hsplit] at h
      exact Or.inl ⟨fs1, rfl, h⟩
    | some e =>
      rw [exec_append_err hsplit] at h
      injection h with h1 h2
      exact Or.inr ⟨e, by rw [← h1], h2.symm⟩

theorem exec_error_split {l : List Op} {fs fs' : FS} {e : IOError}
    (h : exec l fs = (fs', some e)) :
    ∃ pre op suf fsk, l = pre ++ op :: suf ∧ exec pre fs = (fsk, none) ∧
      applyOp op fsk = (fs', some e) := by
  induction l generalizing fs with
  | nil =>
    simp only [exec] at h
    injection h with _ h2
    exact Option.noConfusion h2
  | cons op l ih =>
    cases hop : applyOp op fs with
    | mk fs1 r1 =>
      cases r1 with
      | none =>
        rw [exec_cons_ok hop] at h
        obtain ⟨pre, op', suf, fsk, rfl, h1, h2⟩ := ih h
        exact ⟨op :: pre, op', suf, fsk, rfl, by rw [exec_cons_ok hop]; exact h1, h2⟩
      | some e' =>
        rw [exec_cons_err hop] at h
        injection h with h1 h2
        injection h2 with h2
        exact ⟨[], op, l, fs, rfl, rfl, by rw [hop, h1, h2]⟩

/-! ## What a successful execution guarantees for the operations it ran -/

theorem exec_mkdirs_post {l : List Op} {fs fs' : FS} {p : Path}
    (h : exec l fs = (fs', none)) (hmem : Op.mkdirs p ∈ l) :
    ∀ pre, pre ≠ [] → pre <+: p → fs'.find pre = some Entry.dir := by
  induction l generalizing fs with
  | nil => exact absurd hmem (List.not_mem_nil _)
  | cons op l ih =>
    cases hop : applyOp op fs with
    | mk fs1 r1 =>
      cases r1 with
      | none =>
        rw [exec_cons_ok hop] at h
        rcases List.mem_cons.mp hmem with rfl | hmem'
        · intro pre hne hpre
          exact exec_mono h (makedirs_post hop pre hne hpre)
        · exact ih h hmem'
      | some e =>
        rw [exec_cons_err hop] at h
        injection h with _ h2
        exact Option.noConfusion h2

theorem exec_touch_post {l : List Op} {fs fs' : FS} {p : Path}
    (h : exec l fs = (fs', none)) (hmem : Op.touch p ∈ l) (hp : p ≠ []) :
    ∃ v, fs'.find p = some v := by
  induction l generalizing fs with
  | nil => exact absurd hmem (List.not_mem_nil _)
  | cons op l ih =>
    cases hop : applyOp op fs with
    | mk fs1 r1 =>
      cases r1 with
      | none =>
        rw [exec_cons_ok hop] at h
        rcases List.mem_cons.mp hmem with rfl | hmem'
        · obtain ⟨v, hv⟩ := touch_post hop hp
          exact ⟨v, exec_mono h hv⟩
        · exact ih h hmem'
      | some e =>
        rw [exec_cons_err hop] at h
        injection h with _ h2
        exact Option.noConfusion h2

theorem exec_touch_new {l : List Op} {fs fs' : FS} {p : Path}
    (h : exec l fs = (fs', none)) (hmem : Op.touch p ∈ l)
    (hnone : fs.find p = none) (hp : p ≠ [])
    (hframe : ∀ op ∈ l, op ≠ Op.touch p → ¬ affects op p) :
    fs'.find p = some (Entry.file []) := by
  induction l generalizing fs with
  | nil => exact absurd hmem (List.not_mem_nil _)
  | cons op l ih =>
    cases hop : applyOp op fs with
    | mk fs1 r1 =>
      cases r1 with
      | none =>
        rw [exec_cons_ok hop] at h
        by_cases hope : op = Op.touch p
        · subst hope
          exact exec_mono h (touch_new hop hnone hp)
        · have hfs1 : fs1.find p = none := by
            rw [applyOp_frame hop (hframe op (List.mem_cons_self op l) hope)]
            exact hnone
          have hmem' : Op.touch p ∈ l := by
            rcases List.mem_cons.mp hmem with heq | hmem'
            · exact absurd heq.symm hope
            · exact hmem'
          exact ih h hmem' hfs1
            (fun op' h' hne' => hframe op' (List.mem_cons_of_mem _ h') hne')
      | some e =>
        rw [exec_cons_err hop] at h
        injection h with _ h2
        exact Option.noConfusion h2

theorem exec_touch_ok {l : List Op} {fs : FS}
    (h : ∀ op ∈ l, ∃ p, op = Op.touch p ∧ p ≠ [] ∧
      (p.dropLast = [] ∨ fs.find p.dropLast = some Entry.dir)) :
    ∃ fs', exec l fs = (fs', none) := by
  induction l generalizing fs with
  | nil => exact ⟨fs, rfl⟩
  | cons op l ih =>
    obtain ⟨p, rfl, hp, hpar⟩ := h op (List.mem_cons_self op l)
    cases hfind : FS.find fs p with
    | some v =>
      have hstep : applyOp (Op.touch p) fs = (fs, none) := touch_id hfind
      obtain ⟨fs', hfs'⟩ := ih (fun op' h' => h op' (List.mem_cons_of_mem _ h'))
      exact ⟨fs', by rw [exec_cons_ok hstep]; exact hfs'⟩
    | none =>
      have hstep : applyOp (Op.touch p) fs = (fs.insert p (Entry.file []), none) := by
        show touch fs p = (fs.insert p (Entry.file []), none)
        simp only [touch, hfind, if_neg hp]
        by_cases hd : p.dropLast = []
        · simp only [if_pos hd]
        · rcases hpar with hpar | hpar
          · exact absurd hpar hd
          · simp only [if_neg hd, hpar]
      have hcond : ∀ op' ∈ l, ∃ q, op' = Op.touch q ∧ q ≠ [] ∧
          (q.dropLast = [] ∨ (fs.insert p (Entry.file [])).find q.dropLast = some Entry.dir) := by
        intro op' h'
        obtain ⟨q, rfl, hq, hqpar⟩ := h op' (List.mem_cons_of_mem _ h')
        refine ⟨q, rfl, hq, ?_⟩
        rcases hqpar with hqpar | hqpar
        · exact Or.inl hqpar
        · refine Or.inr ?_
          rw [FS.find_insert]
          by_cases hdq : q.dropLast = p
          · rw [hdq, hfind] at hqpar
            exact Option.noConfusion hqpar
          · rw [if_neg hdq]
            exact hqpar
      obtain ⟨fs', hfs'⟩ := ih hcond
      exact ⟨fs', by rw [exec_cons_ok hstep]; exact hfs'⟩

/-! ## Concrete facts about the manifest, settled by evaluation -/

theorem base_path_eq : base_path = ["ap"] := by decide

theorem dir_target_ne_nil : ∀ s ∈ directories, base_path ++ pathSep s ≠ [] := by decide

theorem touch_target_ne_nil : ∀ p ∈ markerPaths ++ filePaths, p ≠ [] := by decide

theorem touch_target_unaffected :
    ∀ q ∈ markerPaths ++ filePaths, ∀ op ∈ ops, op = Op.touch q ∨ ¬ affects op q := by
  decide

theorem touch_parent_under_dirs :
    ∀ op ∈ initOps ++ fileOps, op = Op.touch op.target ∧ op.target ≠ [] ∧
      op.target.dropLast ≠ [] ∧
      ∃ s ∈ directories, op.target.dropLast <+: base_path ++ pathSep s := by
  decide

/-! ## Membership translation between the manifests and the op list -/

theorem ops_assoc : ops = dirOps ++ (initOps ++ fileOps) := by
  rw [ops, List.append_assoc]

theorem mkdirs_mem_ops {s : String} (hs : s ∈ directories) :
    Op.mkdirs (base_path ++ pathSep s) ∈ ops :=
  List.mem_append.mpr
    (Or.inl (List.mem_append.mpr (Or.inl (List.mem_map.mpr ⟨s, hs, rfl⟩))))

theorem touch_mem_ops {p : Path} (hp : p ∈ markerPaths ++ filePaths) :
    Op.touch p ∈ ops := by
  rcases List.mem_append.mp hp with h1 | h2
  · obtain ⟨loc, hl, rfl⟩ := List.mem_map.mp h1
    exact List.mem_append.mpr
      (Or.inl (List.mem_append.mpr (Or.inr (List.mem_map.mpr ⟨loc, hl, rfl⟩))))
  · obtain ⟨f, hf, rfl⟩ := List.mem_map.mp h2
    exact List.mem_append.mpr (Or.inr (List.mem_map.mpr ⟨f, hf, rfl⟩))

/-! ## The claims -/

/-- C1 (completeness): whenever `create_project_structure` returns
successfully, every directory path of the directory manifest exists as a
directory, every marker and file path exists, and every marker or file
path that was absent beforehand now holds an empty (zero-byte) file. -/
theorem completeness (fs fs' : FS)
    (h : create_project_structure fs = (fs', none)) :
    (∀ p ∈ dirPaths, fs'.find p = some Entry.dir) ∧
    (∀ p ∈ markerPaths ++ filePaths, (fs'.find p).isSome = true) ∧
    (∀ p ∈ markerPaths ++ filePaths, fs.find p = none →
      fs'.find p = some (Entry.file [])) := by
  refine ⟨?_, ?_, ?_⟩
  · intro p hp
    obtain ⟨s, hs, rfl⟩ := List.mem_map.mp hp
    exact exec_mkdirs_post h (mkdirs_mem_ops hs) _ (dir_target_ne_nil s hs) List.prefix_rfl
  · intro p hp
    obtain ⟨v, hv⟩ := exec_touch_post h (touch_mem_ops hp) (touch_target_ne_nil p hp)
    rw [hv]; rfl
  · intro p hp hnone
    exact exec_touch_new h (touch_mem_ops hp) hnone (touch_target_ne_nil p hp)
      (fun op hop hne => (touch_target_unaffected p hp op hop).resolve_left hne)

/-- Witness for C1: running on the empty filesystem succeeds and creates
`ap/src/config.py` as an empty file. -/
theorem completeness_witness :
    (create_project_structure []).1.find (pathSep "ap/src/config.py") =
      some (Entry.file []) := by
  have h := completeness [] (create_project_structure []).1 (by decide)
  exact h.2.2 (pathSep "ap/src/config.py") (by decide) rfl

/-- C2 (exact layout): the paths the script targets are exactly the 18
claimed ones, and a run from the empty filesystem creates exactly those
entries plus the base directory `ap` and the intermediate parents
`ap/data` and `ap/src` that listed directory paths pass through. -/
theorem exact_layout :
    (∀ p : Path, p ∈ layoutPaths ↔ p ∈ claimedLayout) ∧
    (create_project_structure []).2 = none ∧
    (∀ p : Path, ((create_project_structure []).1.find p).isSome = true ↔
      (p ∈ claimedLayout ∨ p ∈ intermediateDirs)) := by
  refine ⟨?_, by decide, ?_⟩
  · have h1 : ∀ p ∈ layoutPaths, p ∈ claimedLayout := by decide
    have h2 : ∀ p ∈ claimedLayout, p ∈ layoutPaths := by decide
    exact fun p => ⟨h1 p, h2 p⟩
  · intro p
    rw [FS.find_isSome_iff]
    have h1 : ∀ q ∈ (create_project_structure []).1.map Prod.fst,
        q ∈ claimedLayout ∨ q ∈ intermediateDirs := by decide
    have h2 : ∀ q ∈ claimedLayout,
        q ∈ (create_project_structure []).1.map Prod.fst := by decide
    have h3 : ∀ q ∈ intermediateDirs,
        q ∈ (create_project_structure []).1.map Prod.fst := by decide
    exact ⟨fun h => h1 p h, fun h => h.elim (h2 p) (h3 p)⟩

/-- C3 (idempotence): a second run on the state a successful run produced
succeeds and leaves the state exactly as it was. -/
theorem idempotent (fs fs' : FS)
    (h : create_project_structure fs = (fs', none)) :
    create_project_structure fs' = (fs', none) := by
  have hdirs : ∀ s ∈ directories, ∀ pre, pre ≠ [] → pre <+: base_path ++ pathSep s →
      fs'.find pre = some Entry.dir :=
    fun s hs => exec_mkdirs_post h (mkdirs_mem_ops hs)
  have htouch : ∀ p ∈ markerPaths ++ filePaths, ∃ v, fs'.find p = some v :=
    fun p hp => exec_touch_post h (touch_mem_ops hp) (touch_target_ne_nil p hp)
  show exec ops fs' = (fs', none)
  refine exec_id ?_
  intro op hop
  have hop' : op ∈ dirOps ++ initOps ++ fileOps := hop
  rcases List.mem_append.mp hop' with h12 | h3
  · rcases List.mem_append.mp h12 with h1 | h2
    · obtain ⟨s, hs, rfl⟩ := List.mem_map.mp h1
      exact makedirs_id (hdirs s hs)
    · obtain ⟨loc, hl, rfl⟩ := List.mem_map.mp h2
      obtain ⟨v, hv⟩ :=
        htouch _ (List.mem_append.mpr (Or.inl (List.mem_map.mpr ⟨loc, hl, rfl⟩)))
      exact touch_id hv
  · obtain ⟨f, hf, rfl⟩ := List.mem_map.mp h3
    obtain ⟨v, hv⟩ :=
      htouch _ (List.mem_append.mpr (Or.inr (List.mem_map.mpr ⟨f, hf, rfl⟩)))
    exact touch_id hv

/-- Witness for C3: a second run on the result of a run from the empty
filesystem is the identity. -/
theorem idempotent_witness :
    create_project_structure (create_project_structure []).1 =
      ((create_project_structure []).1, none) :=
  idempotent [] (create_project_structure []).1 (by decide)

/-- C4 (non-destructiveness): a file entry present before the call keeps
its exact content afterwards, whether the run succeeds or fails; nothing
is deleted, overwritten or truncated. -/
theorem non_destructive (fs fs' : FS) (r : Option IOError) (q : Path) (c : List Nat)
    (h : create_project_structure fs = (fs', r))
    (hq : fs.find q = some (Entry.file c)) :
    fs'.find q = some (Entry.file c) :=
  exec_mono h hq

/-- Witness for C4: pre-existing bytes in `ap/src/config.py` survive a
run untouched. -/
theorem non_destructive_witness :
    (create_project_structure preExistingContentState).1.find
      (pathSep "ap/src/config.py") = some (Entry.file [104, 105]) :=
  non_destructive preExistingContentState _ _ (pathSep "ap/src/config.py")
    [104, 105] rfl (by decide)

/-- C5 (path collision): with a plain file sitting at `ap/src`, the run
fails with an I/O error and the file's content is still in place. -/
theorem path_collision_fails (fs : FS) (c : List Nat)
    (h : fs.find ["ap", "src"] = some (Entry.file c)) :
    ∃ fs' e, create_project_structure fs = (fs', some e) ∧
      fs'.find ["ap", "src"] = some (Entry.file c) := by
  cases hrun : create_project_structure fs with
  | mk fs' r =>
    cases r with
    | none =>
      exfalso
      have hdir : fs'.find ["ap", "src"] = some Entry.dir :=
        exec_mkdirs_post hrun (mkdirs_mem_ops (s := "src/data_processing") (by decide))
          ["ap", "src"] (by decide) (by decide)
      have hkeep : fs'.find ["ap", "src"] = some (Entry.file c) := exec_mono hrun h
      rw [hkeep] at hdir
      simp at hdir
    | some e => exact ⟨fs', e, rfl, exec_mono hrun h⟩

/-- Witness for C5 at a concrete collision state. -/
theorem path_collision_witness :
    (create_project_structure collisionState).1.find ["ap", "src"] =
      some (Entry.file [7]) := by
  obtain ⟨fs', e, hrun, hfind⟩ := path_collision_fails collisionState [7] (by decide)
  rw [hrun]
  exact hfind

/-- C6 (non-transactional failure): when the run fails, nothing that
existed before is rolled back, the run decomposes into a successfully
executed prefix of the operation list followed by the failing operation,
everything the completed prefix created is still in place, and no
operation after the failure point contributes (any suffix gives the same
outcome). -/
theorem non_transactional_failure (fs fs' : FS) (e : IOError)
    (h : create_project_structure fs = (fs', some e)) :
    (∀ q v, fs.find q = some v → fs'.find q = some v) ∧
    ∃ pre op suf fsk, ops = pre ++ op :: suf ∧ exec pre fs = (fsk, none) ∧
      applyOp op fsk = (fs', some e) ∧
      (∀ q v, fsk.find q = some v → fs'.find q = some v) ∧
      (∀ suf', exec (pre ++ op :: suf') fs = (fs', some e)) := by
  refine ⟨fun q v hq => exec_mono h hq, ?_⟩
  obtain ⟨pre, op, suf, fsk, heq, h1, h2⟩ := exec_error_split h
  refine ⟨pre, op, suf, fsk, heq, h1, h2, fun q v hq => applyOp_mono h2 hq, ?_⟩
  intro suf'
  rw [exec_append_ok h1]
  exact exec_cons_err h2

/-- Witness for C6: the collision run fails with `NotADirectoryError` and
keeps the pre-existing file. -/
theorem non_transactional_witness :
    (create_project_structure collisionState).2 = some IOError.notADirectory ∧
    (create_project_structure collisionState).1.find ["ap", "src"] =
      some (Entry.file [7]) :=
  ⟨by decide,
   (non_transactional_failure collisionState (create_project_structure collisionState).1
      IOError.notADirectory (by decide)).1 ["ap", "src"] (Entry.file [7]) (by decide)⟩

/-- C7 (exit status): the no-argument entry point exits `0` exactly when
`create_project_structure` succeeded, exits nonzero on any I/O error, and
passes the final filesystem through unchanged (the error is propagated,
never swallowed). -/
theorem exit_status (fs : FS) :
    ((mainExitCode fs).2 = 0 ↔ (create_project_structure fs).2 = none) ∧
    (∀ e, (create_project_structure fs).2 = some e → (mainExitCode fs).2 ≠ 0) ∧
    (mainExitCode fs).1 = (create_project_structure fs).1 := by
  cases h : create_project_structure fs with
  | mk fs' r =>
    cases r with
    | none => simp [mainExitCode, h]
    | some e => simp [mainExitCode, h]

/-- Witness for C7: from the empty filesystem the exit code is `0`. -/
theorem exit_status_witness : (mainExitCode []).2 = 0 :=
  (exit_status []).1.mpr (by decide)

/-- C8 (determinism / input-independence): the run is a function of the
initial filesystem alone — it takes no arguments, environment or
configuration — so two runs from identical states produce identical final
states and identical outcomes. -/
theorem deterministic (fs1 fs2 : FS) (h : fs1 = fs2) :
    create_project_structure fs1 = create_project_structure fs2 ∧
      mainExitCode fs1 = mainExitCode fs2 := by
  rw [h]
  exact ⟨rfl, rfl⟩

/-- Witness for C8 at the empty filesystem. -/
theorem deterministic_witness :
    create_project_structure [] = create_project_structure [] ∧
      mainExitCode [] = mainExitCode [] :=
  deterministic [] [] rfl

/-- C9 (parents always exist for the file phase): every marker and file
target's parent directory is a nonempty prefix of some listed directory
path (or the base directory `ap`, itself such a prefix), so once the
directory phase has succeeded the two touch phases cannot fail: the
missing-parent error branch of file creation is unreachable. -/
theorem file_phase_cannot_fail (fs fs1 : FS)
    (h : exec dirOps fs = (fs1, none)) :
    (∀ op ∈ initOps ++ fileOps, op.target.dropLast ≠ [] ∧
      ∃ s ∈ directories, op.target.dropLast <+: base_path ++ pathSep s) ∧
    ∃ fs', create_project_structure fs = (fs', none) := by
  refine ⟨fun op hop => ⟨(touch_parent_under_dirs op hop).2.2.1,
    (touch_parent_under_dirs op hop).2.2.2⟩, ?_⟩
  have hcond : ∀ op ∈ initOps ++ fileOps, ∃ p, op = Op.touch p ∧ p ≠ [] ∧
      (p.dropLast = [] ∨ fs1.find p.dropLast = some Entry.dir) := by
    intro op hop
    obtain ⟨heq, hne, hdne, s, hs, hpre⟩ := touch_parent_under_dirs op hop
    refine ⟨op.target, heq, hne, Or.inr ?_⟩
    exact exec_mkdirs_post h (List.mem_map.mpr ⟨s, hs, rfl⟩) _ hdne hpre
  obtain ⟨fs', hfs'⟩ := exec_touch_ok hcond
  refine ⟨fs', ?_⟩
  show exec ops fs = (fs', none)
  rw [ops_assoc, exec_append_ok h]
  exact hfs'

/-- Witness for C9: from the empty filesystem, the directory phase
succeeds, hence the whole run succeeds. -/
theorem file_phase_witness : (create_project_structure []).2 = none := by
  obtain ⟨fs', hfs'⟩ := (file_phase_cannot_fail [] (exec dirOps []).1 (by decide)).2
  rw [hfs']

/-- C10 (effects confined to the `ap` subtree): any path not below the
base directory `ap` — any path whose first component is not `ap` — is
left with exactly the entry (or absence) it had before, whether the run
succeeds or fails. -/
theorem effects_confined (fs fs' : FS) (r : Option IOError) (q : Path)
    (h : create_project_structure fs = (fs', r)) (hq : q.head? ≠ some "ap") :
    fs'.find q = fs.find q := by
  refine exec_frame h ?_
  intro op hop haff
  apply hq
  have htar : ∃ u, op.target = "ap" :: u := by
    have hop' : op ∈ dirOps ++ initOps ++ fileOps := hop
    rcases List.mem_append.mp hop' with h12 | h3
    · rcases List.mem_append.mp h12 with h1 | h2
      · obtain ⟨s, hs, rfl⟩ := List.mem_map.mp h1
        refine ⟨pathSep s, ?_⟩
        show base_path ++ pathSep s = "ap" :: pathSep s
        rw [base_path_eq]; rfl
      · obtain ⟨loc, hl, rfl⟩ := List.mem_map.mp h2
        refine ⟨pathSep loc ++ ["__init__.py"], ?_⟩
        show base_path ++ pathSep loc ++ ["__init__.py"] = "ap" :: (pathSep loc ++ ["__init__.py"])
        rw [base_path_eq]; rfl
    · obtain ⟨f, hf, rfl⟩ := List.mem_map.mp h3
      refine ⟨pathSep f, ?_⟩
      show base_path ++ pathSep f = "ap" :: pathSep f
      rw [base_path_eq]; rfl
  obtain ⟨u, hu⟩ := htar
  cases op with
  | mkdirs p =>
    have hp : p = "ap" :: u := hu
    obtain ⟨hne, hpre⟩ := haff
    obtain ⟨t, ht⟩ := hpre
    cases q with
    | nil => exact absurd rfl hne
    | cons a q' =>
      rw [List.cons_append, hp] at ht
      injection ht with h1 _
      show some a = some "ap"
      rw [h1]
  | touch p =>
    have hp : p = "ap" :: u := hu
    rw [haff, hp]
    rfl

/-- Witness for C10: an entry outside `ap` is untouched by a run. -/
theorem effects_confined_witness :
    (create_project_structure outsideState).1.find ["other"] = some (Entry.file [9]) := by
  rw [effects_confined outsideState (create_project_structure outsideState).1
    (create_project_structure outsideState).2 ["other"] rfl (by decide)]
  decide

end ProjectSetup
